import Mathlib

/-!
Shallow embedding of the ternary search trie from `src/trie.ts` (class `Trie`,
with `Node` from `src/node.ts`).

Modelling conventions:
* A JavaScript string is a list of UTF-16 code units, modelled as `List Nat`
  (type `Key` below).  JavaScript string comparison `<` is lexicographic on
  the code units (`ltKey`).
* `[...word][0]` (the first *code point* of `word`, via the string iterator)
  is `firstCP`: it takes two units when the string starts with a high
  surrogate followed by a low surrogate, and one unit otherwise.
* `word.slice(1)` is `List.drop 1` (it drops one UTF-16 *unit*), and
  `word.length` is `List.length` (the UTF-16 unit count).
* A `Node | null` reference is the inductive `Node V`, whose `nil`
  constructor is JavaScript `null` and whose `mk` constructor carries the
  fields of the `Node` class.  JavaScript `null` in the `value` field is
  `Option.none`.
* JavaScript truthiness of a generic payload cannot be computed inside the
  model, so operations that test `if (node.value)` take an explicit
  truthiness function `tv : V → Bool` (with `null` falsy, as in
  JavaScript).
* The `parent` back pointers of the source are represented implicitly by
  the tree: walking up through `parent` in `Trie.delete` becomes popping a
  zipper frame (`Frame`), and `node.parent.left === node` style slot tests
  become the stored direction of the frame.  `this.root = ...` assignments
  become the value rebuilt at the top of the zipper.
* A thrown validation error is `Except.error`; since validation precedes
  any mutation in the source, the trie state after a throwing call is the
  original one (`afterSet`).
-/

/-- A JavaScript string, as its list of UTF-16 code units. -/
abbrev Key := List Nat

/-- High surrogate range test (0xD800–0xDBFF). -/
def isHighSurr (u : Nat) : Bool := 0xD800 ≤ u && u ≤ 0xDBFF

/-- Low surrogate range test (0xDC00–0xDFFF). -/
def isLowSurr (u : Nat) : Bool := 0xDC00 ≤ u && u ≤ 0xDFFF

/-- A unit that is not a surrogate (a one-unit code point). -/
def noSurr (u : Nat) : Bool := u < 0xD800 || 0xDFFF < u

/-- `[...word][0]` of the source: the first code point of a string, as a
string.  The JavaScript string iterator yields a surrogate pair as one
element and any other unit (including a lone surrogate) alone. -/
def firstCP : Key → Key
  | [] => []
  | [u] => [u]
  | u :: v :: _ => if isHighSurr u && isLowSurr v then [u, v] else [u]

/-- JavaScript string comparison `a < b`: lexicographic on UTF-16 units. -/
def ltKey : Key → Key → Bool
  | [], [] => false
  | [], _ :: _ => true
  | _ :: _, [] => false
  | a :: as, b :: bs => if a < b then true else if b < a then false else ltKey as bs

/-- A `Node | null` reference: `nil` is JavaScript `null`, and `mk` is the
`Node` class of `src/node.ts` — a key (one iterator element of an inserted
word), an optional value, and the three child links.  The `parent` field
is represented implicitly by the tree (see the header). -/
inductive Node (V : Type) : Type where
  | nil
  | mk (key : Key) (value : Option V) (left middle right : Node V)
deriving DecidableEq, Repr

/-- The key of a node (`[]` on `nil`, which the source never reads). -/
def Node.key : Node V → Key
  | .nil => []
  | .mk k _ _ _ _ => k

/-- The value of a node (`none` on `nil`, which the source never reads). -/
def Node.value : Node V → Option V
  | .nil => none
  | .mk _ v _ _ _ => v

def Node.left : Node V → Node V
  | .nil => .nil
  | .mk _ _ l _ _ => l

def Node.middle : Node V → Node V
  | .nil => .nil
  | .mk _ _ _ m _ => m

def Node.right : Node V → Node V
  | .nil => .nil
  | .mk _ _ _ _ r => r

/-- Truthiness of a `Value | null` field: `null` is falsy, a present value
is as truthy as `tv` says. -/
def truthyO (tv : V → Bool) : Option V → Bool
  | none => false
  | some v => tv v

/-- The number of nodes of a subtree (used to state how many nodes a key
occupies; the source has no such counter). -/
def nodeCount : Node V → Nat
  | .nil => 0
  | .mk _ _ l m r => nodeCount l + nodeCount m + nodeCount r + 1

/-!
`Trie.insert` of `src/trie.ts` (lines 176–210), split in two by the shape
of the input node.  `Trie.insert` handles a non-null input node.  `Trie.chain`
handles a null input node: the source creates `new Node(key)` whose key
equals the comparison key, so `key < node.key` and `key > node.key` are
both false and control falls through to the middle/terminal branches,
recursing on `word.slice(1)` with a null middle — `Trie.chain` is that
fall-through (`ltKey k k` is false, `ltKey_irrefl`).  The second component
counts how many times `this.count += 1` executed during the call (only the
terminal branch of the recursion runs it).  `word.length > 1` is decided
by the list having at least two units.
-/
def Trie.chain : Key → V → Node V × Nat
  | [], value => (Node.mk (firstCP []) (some value) .nil .nil .nil, 1)
  | [u], value => (Node.mk (firstCP [u]) (some value) .nil .nil .nil, 1)
  | u :: v :: w, value =>
    let p := Trie.chain (v :: w) value
    (Node.mk (firstCP (u :: v :: w)) none .nil p.1 .nil, p.2)

def Trie.insert (node : Node V) (word : Key) (value : V) : Node V × Nat :=
  match node with
  | .nil => Trie.chain word value
  | .mk k v l m r =>
    let key := firstCP word
    if ltKey key k then
      let p := Trie.insert l word value
      (Node.mk k v p.1 m r, p.2)
    else if ltKey k key then
      let p := Trie.insert r word value
      (Node.mk k v l m p.1, p.2)
    else if word.length > 1 then
      let p := Trie.insert m (word.drop 1) value
      (Node.mk k v l p.1 r, p.2)
    else (Node.mk k (some value) l m r, 1)

/-!
`Trie.find` of `src/trie.ts` (lines 156–174).  For the empty word the
source computes `const key = [...word][0]`, which is `undefined`; both
JavaScript comparisons `undefined < node.key` and `undefined > node.key`
are false and `word.length > 1` fails, so a non-null node is returned as
is.  That is the `word = []` branch below.
-/
def Trie.find (word : Key) (node : Node V) : Node V :=
  match node with
  | .nil => .nil
  | .mk k v l m r =>
    if word = [] then .mk k v l m r
    else
      let key := firstCP word
      if ltKey key k then Trie.find word l
      else if ltKey k key then Trie.find word r
      else if word.length > 1 then Trie.find (word.drop 1) m
      else .mk k v l m r

/-!
`Trie.getKeys` of `src/trie.ts` (lines 136–144), accumulated in emission
order (the value-bearing node first, then left, middle, right).  Note the
source tests `if (node.value)` — truthiness, not a null check.
-/
def Trie.getKeys (tv : V → Bool) (node : Node V) (pre : Key) : List Key :=
  match node with
  | .nil => []
  | .mk k v l m r =>
    (if truthyO tv v then [pre ++ k] else []) ++
    Trie.getKeys tv l pre ++
    Trie.getKeys tv m (pre ++ k) ++
    Trie.getKeys tv r pre

/-- The two validation failures of `Trie.validateKey` (lines 310–320): a
`TypeError` for a non-string key (carrying the `typeof` tag) and a plain
`Error` for a key of length zero. -/
inductive KeyError : Type where
  | invalidType (typeName : String)
  | empty
deriving DecidableEq, Repr

/-- A JavaScript value passed where a string key is expected: either a
string or a non-string carrying its `typeof` tag. -/
inductive JSVal : Type where
  | str (s : Key)
  | nonString (typeName : String)
deriving DecidableEq, Repr

/-- `Trie.validateKey` on an arbitrary JavaScript value: non-strings throw
`TypeError`, strings of length `< 1` throw `Error`. -/
def validateKeyJS : JSVal → Except KeyError Key
  | .nonString t => .error (.invalidType t)
  | .str s => if s.length < 1 then .error .empty else .ok s

/-- `Trie.validateKey` on a (typed) string key: only the length check can
fail. -/
def validateKey (key : Key) : Option KeyError :=
  if key.length < 1 then some .empty else none

/-- The `Trie` class state: `root` and `count` (lines 13–23). -/
structure Trie (V : Type) : Type where
  root : Node V
  count : Nat
deriving DecidableEq, Repr

/-- `new Trie()`: `root = null`, `count = 0`. -/
def Trie.empty : Trie V := ⟨.nil, 0⟩

/-- The `Trie.size` getter. -/
def Trie.size (t : Trie V) : Nat := t.count

/-- The `Trie.isEmpty` getter: `count === 0`. -/
def Trie.isEmpty (t : Trie V) : Bool := t.count == 0

/-- `Trie.set` (lines 44–50): validate, then Trie.insert at the root.  The root
becomes the node returned by `Trie.insert` (for a null root the source assigns
it inside `Trie.insert`; for a non-null root the returned node is the mutated
root object), and `count` grows by the number of terminal assignments. -/
def Trie.set (t : Trie V) (key : Key) (value : V) : Except KeyError (Trie V) :=
  match validateKey key with
  | some e => .error e
  | none =>
    let p := Trie.insert t.root key value
    .ok ⟨p.1, t.count + p.2⟩

/-- The trie state after a `set` call, whether it returned or threw: a
thrown validation error happens before any mutation and leaves the
receiver unchanged. -/
def afterSet (t : Trie V) (key : Key) (value : V) : Trie V :=
  match t.set key value with
  | .ok t2 => t2
  | .error _ => t

/-- `Trie.get` (lines 56–62): validate, Trie.find, then `node?.value ?? null`. -/
def Trie.get (t : Trie V) (key : Key) : Except KeyError (Option V) :=
  match validateKey key with
  | some e => .error e
  | none => .ok (Trie.find key t.root).value

/-- `Trie.keys` (lines 90–96). -/
def Trie.keys (tv : V → Bool) (t : Trie V) : List Key :=
  Trie.getKeys tv t.root []

/-- `Trie.contains` (lines 83–85): `keys().includes(key)`. -/
def Trie.contains (tv : V → Bool) (t : Trie V) (key : Key) : Bool :=
  (Trie.keys tv t).contains key

/-- `Trie.keysWithPrefix` (lines 102–109): Trie.find the prefix node, then
enumerate from its middle child only.  No validation is performed. -/
def Trie.keysWithPrefix (tv : V → Bool) (t : Trie V) (pre : Key) : List Key :=
  match Trie.find pre t.root with
  | .nil => []
  | .mk _ _ _ m _ => Trie.getKeys tv m pre

/-- Which child slot a node occupies in its parent (the information the
source recovers from `node.parent.left === node` etc.). -/
inductive Dir : Type where
  | L
  | M
  | R
deriving DecidableEq, Repr

/-- One ancestor on the path from the root to a focused node: the
direction taken, the ancestor's own key and value, and its two other
subtrees (`s1`/`s2` in left-to-right order of the remaining slots). -/
structure Frame (V : Type) : Type where
  dir : Dir
  key : Key
  value : Option V
  s1 : Node V
  s2 : Node V
deriving DecidableEq, Repr

/-- Reattach a child into an ancestor frame. -/
def plug (child : Node V) (f : Frame V) : Node V :=
  match f.dir with
  | .L => Node.mk f.key f.value child f.s1 f.s2
  | .M => Node.mk f.key f.value f.s1 child f.s2
  | .R => Node.mk f.key f.value f.s1 f.s2 child

/-- Rebuild the root from a child and its ancestor path (innermost frame
first). -/
def rebuild (child : Node V) : List (Frame V) → Node V
  | [] => child
  | f :: fs => rebuild (plug child f) fs

/-- The `while (child.right) child = child.right` search of `Trie.delete`
together with the detachment of the found node: returns the rightmost
node of the subtree, and the subtree after that node is replaced by its
own left child (`child.parent.right = child.left`).  When the root of the
subtree has no right child it is itself the rightmost node and the
remainder is its left child. -/
def removeRightmost : Node V → Node V × Node V
  | .nil => (.nil, .nil)
  | .mk k v l m .nil => (.mk k v l m .nil, l)
  | .mk k v l m (.mk rk rv rl rm rr) =>
    let p := removeRightmost (.mk rk rv rl rm rr)
    (p.1, .mk k v l m p.2)

/-!
`Trie.delete` of `src/trie.ts` (lines 233–308) on the zipper: the focused
node (whose value the caller `del` already cleared) together with the
frame list of its ancestors.  The branches in source order:
1. a middle child exists → plain `return` (tree kept as is);
2. no children and a truthy value → `return`;
3. no children → the parent's slot for this node is nulled and deletion
   recurses on the parent (`this.root = null` when there is no parent);
4. exactly one of left/right and no middle → that child replaces the node
   in the parent's slot (or becomes the root);
5. both left and right and no middle → the rightmost node of the left
   subtree replaces the node: its former slot is filled by its own left
   child, and it takes over the node's left and right subtrees.
-/
/-- The outcome of one visit of `Trie.delete` at a node: either the
subtree that stays in the node's slot (branches 1, 2, 4 and 5 — no upward
recursion), or the removal of a dead leaf, after which deletion recurses
on the parent (branch 3). -/
inductive DelAction (V : Type) : Type where
  | keep (sub : Node V)
  | removeLeaf
deriving DecidableEq, Repr

/-- The branch dispatch of `Trie.delete` in source order (see `deleteZ`). -/
def delStep (tv : V → Bool) (n : Node V) : DelAction V :=
  match n.middle with
  | .mk mk0 mv0 ml0 mm0 mr0 =>
    .keep (Node.mk n.key n.value n.left (.mk mk0 mv0 ml0 mm0 mr0) n.right)
  | .nil =>
    match n.left, n.right with
    | .nil, .nil =>
      if truthyO tv n.value then .keep n else .removeLeaf
    | .mk ck cv cl cm cr, .nil => .keep (.mk ck cv cl cm cr)
    | .nil, .mk ck cv cl cm cr => .keep (.mk ck cv cl cm cr)
    | .mk lk lv ll lm lr, .mk rk rv rl rm rr =>
      let p := removeRightmost (.mk lk lv ll lm lr)
      .keep (Node.mk p.1.key p.1.value p.2 p.1.middle (.mk rk rv rl rm rr))

def deleteZ (tv : V → Bool) (n : Node V) (ctx : List (Frame V)) : Node V :=
  match delStep tv n, ctx with
  | .keep sub, _ => rebuild sub ctx
  | .removeLeaf, [] => .nil
  | .removeLeaf, f :: fs => deleteZ tv (plug .nil f) fs

/-!
`Trie.del` of `src/trie.ts` (lines 68–77): Trie.find the node (no validation),
and if one is found clear its value and run the structural delete.
`delAux` fuses the `Trie.find` descent with the collection of the ancestor
path; a missed search rebuilds the unchanged tree (the frames hold
everything that was walked past).  `count` is never decremented by the
source.
-/
def delAux (tv : V → Bool) (word : Key) (node : Node V)
    (ctx : List (Frame V)) : Node V :=
  match node with
  | .nil => rebuild .nil ctx
  | .mk k v l m r =>
    if word = [] then
      deleteZ tv (Node.mk k none l m r) ctx
    else
      let key := firstCP word
      if ltKey key k then
        delAux tv word l (⟨.L, k, v, m, r⟩ :: ctx)
      else if ltKey k key then
        delAux tv word r (⟨.R, k, v, l, m⟩ :: ctx)
      else if word.length > 1 then
        delAux tv (word.drop 1) m (⟨.M, k, v, l, r⟩ :: ctx)
      else
        deleteZ tv (Node.mk k none l m r) ctx

/-- `Trie.del`: the root is whatever the walk rebuilt; the count is left
alone (the source has no decrement). -/
def Trie.del (tv : V → Bool) (t : Trie V) (key : Key) : Trie V :=
  ⟨delAux tv key t.root [], t.count⟩

/-- The truthiness of a JavaScript number: `0` (and `NaN`) are falsy, all
other numbers truthy.  Used to instantiate `tv` in concrete statements. -/
def tvNat : Nat → Bool := fun n => n != 0

theorem ltKey_irrefl (a : Key) : ltKey a a = false := by
  induction a with
  | nil => rfl
  | cons x xs ih => simp [ltKey, ih]

theorem ltKey_total (a b : Key) (hab : ltKey a b = false) (hba : ltKey b a = false) :
    a = b := by
  induction a generalizing b with
  | nil => cases b with
    | nil => rfl
    | cons y ys => simp [ltKey] at hab
  | cons x xs ih =>
    cases b with
    | nil => simp [ltKey] at hba
    | cons y ys =>
      simp only [ltKey] at hab hba
      by_cases h1 : x < y
      · simp [h1] at hab
      · by_cases h2 : y < x
        · simp [h2] at hba
        · have hxy : x = y := Nat.le_antisymm (Nat.not_lt.mp h2) (Nat.not_lt.mp h1)
          subst hxy
          simp [h1] at hab hba
          rw [ih ys hab hba]

theorem find_chain (word : Key) (v : V) (hw : word ≠ []) :
    (Trie.find word (Trie.chain word v).1).value = some v := by
  induction word with
  | nil => exact absurd rfl hw
  | cons u rest ih =>
    cases rest with
    | nil =>
      simp [Trie.chain, Trie.find, firstCP, ltKey_irrefl, Node.value]
    | cons w ws =>
      simp only [Trie.chain, Trie.find]
      rw [if_neg (by simp), if_neg (by simp [ltKey_irrefl]), if_neg (by simp [ltKey_irrefl]),
        if_pos (by simp)]
      simpa using ih (by simp)

theorem find_insert (node : Node V) (word : Key) (v : V) (hw : word ≠ []) :
    (Trie.find word (Trie.insert node word v).1).value = some v := by
  induction node generalizing word with
  | nil => exact find_chain word v hw
  | mk k v0 l m r ihl ihm ihr =>
    simp only [Trie.insert]
    by_cases h1 : ltKey (firstCP word) k = true
    · simp only [h1, if_true]
      simp only [Trie.find, if_neg hw, h1, if_true]
      exact ihl word hw
    · by_cases h2 : ltKey k (firstCP word) = true
      · simp only [h1, h2, if_false, if_true]
        simp only [Trie.find, if_neg hw, h1, h2, if_false, if_true]
        exact ihr word hw
      · by_cases h3 : word.length > 1
        · simp only [h1, h2, h3, if_false, if_true]
          simp only [Trie.find, if_neg hw, h1, h2, h3, if_false, if_true]
          exact ihm (word.drop 1)
            (List.length_pos.mp (by simp [List.length_drop]; omega))
        · simp only [h1, h2, h3, if_false]
          simp only [Trie.find, if_neg hw, h1, h2, h3, if_false]
          simp [Node.value]

theorem chain_count (word : Key) (v : V) : (Trie.chain word v).2 = 1 := by
  induction word with
  | nil => rfl
  | cons u rest ih =>
    cases rest with
    | nil => rfl
    | cons w ws => simpa [Trie.chain] using ih

theorem insert_count (node : Node V) (word : Key) (v : V) :
    (Trie.insert node word v).2 = 1 := by
  induction node generalizing word with
  | nil => exact chain_count word v
  | mk k v0 l m r ihl ihm ihr =>
    simp only [Trie.insert]
    by_cases h1 : ltKey (firstCP word) k = true
    · simpa [h1] using ihl word
    · by_cases h2 : ltKey k (firstCP word) = true
      · simpa [h1, h2] using ihr word
      · by_cases h3 : word.length > 1
        · simpa [h1, h2, h3] using ihm (word.drop 1)
        · simp [h1, h2, h3]

theorem validateKey_none (k : Key) (hk : k ≠ []) : validateKey k = none := by
  cases k with
  | nil => exact absurd rfl hk
  | cons u us => simp [validateKey]

theorem afterSet_eq (t : Trie V) (k : Key) (v : V) (hk : k ≠ []) :
    afterSet t k v = ⟨(Trie.insert t.root k v).1, t.count + (Trie.insert t.root k v).2⟩ := by
  simp [afterSet, Trie.set, validateKey_none k hk]

theorem get_afterSet (t : Trie V) (k : Key) (v : V) (hk : k ≠ []) :
    Trie.get (afterSet t k v) k = .ok (some v) := by
  rw [afterSet_eq t k v hk]
  simp only [Trie.get, validateKey_none k hk]
  rw [find_insert t.root k v hk]

/-- C1: for every valid key (a non-empty string) and every non-null value
`v`, `set(k, v)` followed by `get(k)` on the same trie returns `v`. -/
theorem set_then_get_returns_value (t : Trie V) (k : Key) (v : V) (hk : k ≠ []) :
    Trie.get (afterSet t k v) k = .ok (some v) :=
  get_afterSet t k v hk

theorem set_then_get_returns_value_witness :
    ([97, 98] : Key) ≠ [] ∧
    Trie.get (afterSet (Trie.empty : Trie Nat) [97, 98] 5) [97, 98] = .ok (some 5) :=
  ⟨by decide, set_then_get_returns_value Trie.empty [97, 98] 5 (by decide)⟩

/-- C2 counterexample: re-setting the stored key "a" replaces its value
but `size` grows from 1 to 2, because the terminal branch of `insert`
increments the count unconditionally — the claim that `size` is unchanged
is false. -/
theorem reset_size_counterexample :
    Trie.get (afterSet (afterSet (Trie.empty : Trie Nat) [97] 1) [97] 2) [97]
      = .ok (some 2) ∧
    Trie.size (afterSet (Trie.empty : Trie Nat) [97] 1) = 1 ∧
    Trie.size (afterSet (afterSet (Trie.empty : Trie Nat) [97] 1) [97] 2) = 2 :=
  ⟨rfl, rfl, rfl⟩

/-- C2 amended: re-setting an existing key replaces the stored value, but
`size` increases by one on every successful `set` — the count is
incremented at the terminal node whether or not it held a prior value. -/
theorem set_replaces_value_and_increments_size (t : Trie V) (k : Key) (v : V)
    (hk : k ≠ []) :
    Trie.get (afterSet t k v) k = .ok (some v) ∧
    Trie.size (afterSet t k v) = Trie.size t + 1 := by
  refine ⟨get_afterSet t k v hk, ?_⟩
  rw [afterSet_eq t k v hk]
  simp [Trie.size, insert_count]

theorem set_replaces_value_and_increments_size_witness :
    ([97] : Key) ≠ [] ∧
    (Trie.get (afterSet (afterSet (Trie.empty : Trie Nat) [97] 1) [97] 2) [97]
        = .ok (some 2) ∧
     Trie.size (afterSet (afterSet (Trie.empty : Trie Nat) [97] 1) [97] 2)
        = Trie.size (afterSet (Trie.empty : Trie Nat) [97] 1) + 1) :=
  ⟨by decide,
   set_replaces_value_and_increments_size (afterSet Trie.empty [97] 1) [97] 2 (by decide)⟩

/-- C3: evaluation at the failing input.  Store a=1, ab=2, b=3, then
`del("ab")`: the count stays 3 (the source never decrements it), the
deleted key is gone, but the sibling key "a" — not deleted — also loses
its value, because the cascading cleanup replaces the valued node "a" by
its single child "b".  Both the size clause and the other-keys clause of
the claim fail. -/
theorem del_keeps_size_and_loses_sibling :
    Trie.get (afterSet (afterSet (afterSet (Trie.empty : Trie Nat) [97] 1) [97, 98] 2) [98] 3) [97]
      = .ok (some 1) ∧
    Trie.get (Trie.del tvNat (afterSet (afterSet (afterSet (Trie.empty : Trie Nat) [97] 1) [97, 98] 2) [98] 3) [97, 98]) [97, 98]
      = .ok none ∧
    Trie.size (Trie.del tvNat (afterSet (afterSet (afterSet (Trie.empty : Trie Nat) [97] 1) [97, 98] 2) [98] 3) [97, 98])
      = 3 ∧
    Trie.get (Trie.del tvNat (afterSet (afterSet (afterSet (Trie.empty : Trie Nat) [97] 1) [97, 98] 2) [98] 3) [97, 98]) [97]
      = .ok none :=
  ⟨rfl, rfl, rfl, rfl⟩

/-- C6: evaluation at the failing input "😀" (units 0xD83D 0xDE00).  The
key is stored across two nodes (the comparison key is the whole surrogate
pair but `slice(1)` drops only one unit, leaving a lone low surrogate
node), `get` still round-trips, but `keys()` returns the corrupted
three-unit string "😀\uDE00" and `contains` is false. -/
theorem surrogate_key_split_eval :
    Trie.get (afterSet (Trie.empty : Trie Nat) [0xD83D, 0xDE00] 7) [0xD83D, 0xDE00]
      = .ok (some 7) ∧
    nodeCount (afterSet (Trie.empty : Trie Nat) [0xD83D, 0xDE00] 7).root = 2 ∧
    Trie.keys tvNat (afterSet (Trie.empty : Trie Nat) [0xD83D, 0xDE00] 7)
      = [[0xD83D, 0xDE00, 0xDE00]] ∧
    Trie.contains tvNat (afterSet (Trie.empty : Trie Nat) [0xD83D, 0xDE00] 7)
      [0xD83D, 0xDE00] = false :=
  ⟨rfl, rfl, rfl, rfl⟩

/-- C10: with the falsy payload `0` stored under "ab", `get` returns `0`
(the `?? null` fallback only replaces null), but `keys()`, `contains` and
`keysWithPrefix` all skip the node because enumeration tests truthiness. -/
theorem falsy_value_partial_visibility :
    Trie.get (afterSet (Trie.empty : Trie Nat) [97, 98] 0) [97, 98] = .ok (some 0) ∧
    Trie.keys tvNat (afterSet (Trie.empty : Trie Nat) [97, 98] 0) = [] ∧
    Trie.contains tvNat (afterSet (Trie.empty : Trie Nat) [97, 98] 0) [97, 98] = false ∧
    Trie.keysWithPrefix tvNat (afterSet (Trie.empty : Trie Nat) [97, 98] 0) [97] = [] :=
  ⟨rfl, rfl, rfl, rfl⟩

/-- C5 counterexample, three instances against "returns exactly the stored
keys that start with p": (1) "a" is stored but `keysWithPrefix("a")` is
empty — the prefix node's own value is never emitted; (2) with "a" and
"b" stored, `keysWithPrefix("")` is empty although every key starts with
the empty prefix; (3) with "😀" stored, `keys()` lists a string that
starts with the unit prefix "\uD83D" yet `keysWithPrefix("\uD83D")` is
empty. -/
theorem keysWithPrefix_counterexample :
    (Trie.keysWithPrefix tvNat (afterSet (Trie.empty : Trie Nat) [97] 5) [97] = [] ∧
     Trie.keys tvNat (afterSet (Trie.empty : Trie Nat) [97] 5) = [[97]]) ∧
    (Trie.keysWithPrefix tvNat (afterSet (afterSet (Trie.empty : Trie Nat) [97] 1) [98] 2) [] = [] ∧
     Trie.keys tvNat (afterSet (afterSet (Trie.empty : Trie Nat) [97] 1) [98] 2) = [[97], [98]]) ∧
    (Trie.keysWithPrefix tvNat (afterSet (Trie.empty : Trie Nat) [0xD83D, 0xDE00] 7) [0xD83D] = [] ∧
     Trie.keys tvNat (afterSet (Trie.empty : Trie Nat) [0xD83D, 0xDE00] 7) = [[0xD83D, 0xDE00, 0xDE00]] ∧
     [0xD83D] <+: [0xD83D, 0xDE00, 0xDE00]) :=
  ⟨⟨rfl, rfl⟩, ⟨rfl, rfl⟩, ⟨rfl, rfl, by decide⟩⟩

/-- C7 counterexample: `del` is a key-accepting operation, the shared
validation rule rejects the empty key, yet `del("")` neither throws nor
leaves the trie unmodified: on a trie storing "b" it finds the root node
(the `undefined` comparison quirk of `find`), clears its value and
removes it. -/
theorem del_skips_validation_counterexample :
    validateKey [] = some KeyError.empty ∧
    Trie.del tvNat (afterSet (Trie.empty : Trie Nat) [98] 1) [] = ⟨Node.nil, 1⟩ ∧
    Trie.get (afterSet (Trie.empty : Trie Nat) [98] 1) [98] = .ok (some 1) ∧
    Trie.get (Trie.del tvNat (afterSet (Trie.empty : Trie Nat) [98] 1) []) [98] = .ok none :=
  ⟨rfl, rfl, rfl, rfl⟩

/-- C7 amended: only `set` and `get` apply the validation rule (string
type, then code-unit length at least 1), failing fast with two
distinguishable error kinds before any mutation or traversal — a failed
validation leaves the trie unchanged; `del` (together with `contains` and
`keysWithPrefix`) performs no validation, and `del` with an empty key can
mutate the trie. -/
theorem validation_only_in_set_and_get (t : Trie Nat) (v : Nat) (tag : String) :
    Trie.set t [] v = .error KeyError.empty ∧
    Trie.get t ([] : Key) = .error KeyError.empty ∧
    afterSet t [] v = t ∧
    validateKeyJS (JSVal.nonString tag) = .error (KeyError.invalidType tag) ∧
    validateKeyJS (JSVal.str []) = .error KeyError.empty ∧
    Trie.del tvNat (afterSet (Trie.empty : Trie Nat) [98] 1) []
      ≠ afterSet (Trie.empty : Trie Nat) [98] 1 := by
  refine ⟨rfl, rfl, rfl, rfl, rfl, fun h => ?_⟩
  exact Node.noConfusion (congrArg Trie.root h)

/-- C4 counterexample: the empty string is never a stored key (`set` and
`get` reject it), yet `del("")` on a trie storing "a" is not a no-op: it
finds the root node, clears its value and removes the node, so "a" is no
longer stored. -/
theorem del_empty_key_counterexample :
    Trie.get (afterSet (Trie.empty : Trie Nat) [97] 1) [] = .error KeyError.empty ∧
    Trie.del tvNat (afterSet (Trie.empty : Trie Nat) [97] 1) [] = ⟨Node.nil, 1⟩ ∧
    Trie.get (afterSet (Trie.empty : Trie Nat) [97] 1) [97] = .ok (some 1) ∧
    Trie.get (Trie.del tvNat (afterSet (Trie.empty : Trie Nat) [97] 1) []) [97] = .ok none :=
  ⟨rfl, rfl, rfl, rfl⟩

/-- The in-order predecessor search of `Trie.delete`
(`while (child.right) child = child.right`), by itself. -/
def rightmost : Node V → Node V
  | .nil => .nil
  | .mk k v l m .nil => .mk k v l m .nil
  | .mk _ _ _ _ (.mk rk rv rl rm rr) => rightmost (.mk rk rv rl rm rr)

/-- Removal of the rightmost node of a subtree, its own left child hoisted
into the slot it occupied in its parent, by itself. -/
def dropRightmost : Node V → Node V
  | .nil => .nil
  | .mk _ _ l _ .nil => l
  | .mk k v l m (.mk rk rv rl rm rr) => .mk k v l m (dropRightmost (.mk rk rv rl rm rr))

theorem removeRightmost_eq (n : Node V) :
    removeRightmost n = (rightmost n, dropRightmost n) := by
  induction n with
  | nil => rfl
  | mk k v l m r ihl ihm ihr =>
    cases r with
    | nil => rfl
    | mk rk rv rl rm rr => simp [removeRightmost, rightmost, dropRightmost, ihr]

/-- C8: when the structural delete reaches a node with both a left and a
right child and no middle child, the node is replaced — in whatever slot
the ancestor path gives it — by the rightmost node of its left subtree
(the in-order predecessor): that predecessor is detached with its dangling
left child hoisted into its former parent's right slot (`dropRightmost`),
and it takes over the deleted node's left and right subtrees and its
position.  Parent pointers are the implicit tree structure here, so their
update is the rebuilding itself. -/
theorem delete_both_children_promotes_predecessor (tv : V → Bool) (k : Key)
    (v0 : Option V) (l r : Node V) (ctx : List (Frame V))
    (hl : l ≠ .nil) (hr : r ≠ .nil) :
    deleteZ tv (Node.mk k v0 l .nil r) ctx
      = rebuild (Node.mk (rightmost l).key (rightmost l).value (dropRightmost l)
          (rightmost l).middle r) ctx := by
  cases l with
  | nil => exact absurd rfl hl
  | mk lk lv ll lm lr =>
    cases r with
    | nil => exact absurd rfl hr
    | mk rk rv rl rm rr =>
      simp [deleteZ, delStep, Node.middle, Node.left, Node.right, removeRightmost_eq]

theorem delete_both_children_promotes_predecessor_witness :
    ((Node.mk [98] (some 2) .nil .nil (.mk [99] (some 3) .nil .nil .nil) : Node Nat) ≠ .nil) ∧
    ((Node.mk [101] (some 4) .nil .nil .nil : Node Nat) ≠ .nil) ∧
    deleteZ tvNat
        (Node.mk [100] none
          (Node.mk [98] (some 2) .nil .nil (.mk [99] (some 3) .nil .nil .nil))
          .nil
          (Node.mk [101] (some 4) .nil .nil .nil)) []
      = rebuild
          (Node.mk
            (rightmost (Node.mk [98] (some 2) .nil .nil (.mk [99] (some 3) .nil .nil .nil))).key
            (rightmost (Node.mk [98] (some 2) .nil .nil (.mk [99] (some 3) .nil .nil .nil))).value
            (dropRightmost (Node.mk [98] (some 2) .nil .nil (.mk [99] (some 3) .nil .nil .nil)))
            (rightmost (Node.mk [98] (some 2) .nil .nil (.mk [99] (some 3) .nil .nil .nil))).middle
            (Node.mk [101] (some 4) .nil .nil .nil)) [] :=
  ⟨fun h => Node.noConfusion h, fun h => Node.noConfusion h,
   delete_both_children_promotes_predecessor tvNat [100] none
     (Node.mk [98] (some 2) .nil .nil (.mk [99] (some 3) .nil .nil .nil))
     (Node.mk [101] (some 4) .nil .nil .nil) []
     (fun h => Node.noConfusion h) (fun h => Node.noConfusion h)⟩

/-- True exactly on `nil` (a null reference). -/
def Node.isNil : Node V → Bool
  | .nil => true
  | .mk _ _ _ _ _ => false

/-- The structural invariant behind silent deletes: every node of the
subtree holds a value or has a middle child.  Every trie reachable through
`set`/`del` satisfies it (see the preservation lemmas); a node violating
it would be a dead branch that `delete` is designed to clean up. -/
def goodN : Node V → Bool
  | .nil => true
  | .mk _ v l m r => (v.isSome || !m.isNil) && goodN l && goodN m && goodN r

theorem delAux_noop (tv : V → Bool) (node : Node V) :
    ∀ (word : Key) (ctx : List (Frame V)), word ≠ [] → goodN node = true →
    (Trie.find word node).value = none →
    delAux tv word node ctx = rebuild node ctx := by
  induction node with
  | nil => intro word ctx hw hg hf; rfl
  | mk k v l m r ihl ihm ihr =>
    intro word ctx hw hg hf
    simp only [goodN, Bool.and_eq_true] at hg
    obtain ⟨⟨⟨hvm, hgl⟩, hgm⟩, hgr⟩ := hg
    simp only [Trie.find, if_neg hw] at hf
    simp only [delAux, if_neg hw]
    by_cases h1 : ltKey (firstCP word) k = true
    · simp only [h1, if_true]
      rw [ihl word _ hw hgl (by simpa [h1] using hf)]
      rfl
    · by_cases h2 : ltKey k (firstCP word) = true
      · simp only [h1, h2, if_false, if_true]
        rw [ihr word _ hw hgr (by simpa [h1, h2] using hf)]
        rfl
      · by_cases h3 : word.length > 1
        · simp only [h1, h2, h3, if_false, if_true]
          rw [ihm (word.drop 1) _ (List.length_pos.mp (by simp [List.length_drop]; omega))
            hgm (by simpa [h1, h2, h3] using hf)]
          rfl
        · simp only [h1, h2, h3, if_false]
          have hv : v = none := by simpa [h1, h2, h3, Node.value] using hf
          subst hv
          simp only [Option.isSome_none, Bool.false_or, Bool.not_eq_true] at hvm
          cases m with
          | nil => simp [Node.isNil] at hvm
          | mk mk0 mv0 ml0 mm0 mr0 =>
            simp [deleteZ, delStep, Node.middle, Node.key, Node.value, Node.left, Node.right]

/-- C4 amended: for every *non-empty* key `k` that is not stored (`get`
returns null), `del(k)` raises no error and leaves the trie unchanged.
The hypothesis `goodN` is the invariant that every node holds a value or
has a middle child, which holds for every trie reachable through the
public interface (see `goodN_afterSet` and `goodN_del`). -/
theorem del_absent_nonempty_noop (tv : V → Bool) (t : Trie V) (k : Key)
    (hg : goodN t.root = true) (hk : k ≠ []) (habs : Trie.get t k = .ok none) :
    Trie.del tv t k = t := by
  have hf : (Trie.find k t.root).value = none := by
    simp only [Trie.get, validateKey_none k hk] at habs
    injection habs
  show (⟨delAux tv k t.root [], t.count⟩ : Trie V) = t
  rw [delAux_noop tv t.root k [] hk hg hf]
  rfl

theorem del_absent_nonempty_noop_witness :
    (goodN (afterSet (Trie.empty : Trie Nat) [97, 98] 1).root = true ∧
     ([97] : Key) ≠ [] ∧
     Trie.get (afterSet (Trie.empty : Trie Nat) [97, 98] 1) [97] = .ok none) ∧
    Trie.del tvNat (afterSet (Trie.empty : Trie Nat) [97, 98] 1) [97]
      = afterSet (Trie.empty : Trie Nat) [97, 98] 1 :=
  ⟨⟨rfl, by decide, rfl⟩,
   del_absent_nonempty_noop tvNat (afterSet Trie.empty [97, 98] 1) [97]
     rfl (by decide) rfl⟩

theorem chain_fst_isNil (word : Key) (v : V) : (Trie.chain word v).1.isNil = false := by
  cases word with
  | nil => rfl
  | cons u rest => cases rest with
    | nil => rfl
    | cons w ws => rfl

theorem insert_fst_isNil (node : Node V) (word : Key) (v : V) :
    (Trie.insert node word v).1.isNil = false := by
  cases node with
  | nil => exact chain_fst_isNil word v
  | mk k v0 l m r =>
    simp only [Trie.insert]
    by_cases h1 : ltKey (firstCP word) k = true
    · simp [h1, Node.isNil]
    · by_cases h2 : ltKey k (firstCP word) = true
      · simp [h1, h2, Node.isNil]
      · by_cases h3 : word.length > 1
        · simp [h1, h2, h3, Node.isNil]
        · simp [h1, h2, h3, Node.isNil]

theorem goodN_chain (word : Key) (v : V) : goodN (Trie.chain word v).1 = true := by
  induction word with
  | nil => rfl
  | cons u rest ih =>
    cases rest with
    | nil => rfl
    | cons w ws =>
      simp [Trie.chain, goodN, ih, chain_fst_isNil]

theorem goodN_insert (node : Node V) (word : Key) (v : V) (hg : goodN node = true) :
    goodN (Trie.insert node word v).1 = true := by
  induction node generalizing word with
  | nil => exact goodN_chain word v
  | mk k v0 l m r ihl ihm ihr =>
    simp only [goodN, Bool.and_eq_true] at hg
    obtain ⟨⟨⟨hvm, hgl⟩, hgm⟩, hgr⟩ := hg
    simp only [Trie.insert]
    by_cases h1 : ltKey (firstCP word) k = true
    · simp only [h1, if_true]
      simp [goodN, hvm, hgm, hgr, ihl word hgl]
    · by_cases h2 : ltKey k (firstCP word) = true
      · simp only [h1, h2, if_false, if_true]
        simp [goodN, hvm, hgl, hgm, ihr word hgr]
      · by_cases h3 : word.length > 1
        · simp only [h1, h2, h3, if_false, if_true]
          have hm := ihm (word.drop 1) hgm
          rw [List.drop_one] at hm
          simp [goodN, hgl, hgr, hm, insert_fst_isNil]
        · simp only [h1, h2, h3, if_false]
          simp [goodN, hgl, hgm, hgr]

/-- The invariant holds for every trie `set` can produce from a good one. -/
theorem goodN_afterSet (t : Trie V) (k : Key) (v : V) (hg : goodN t.root = true) :
    goodN (afterSet t k v).root = true := by
  cases k with
  | nil => exact hg
  | cons u us =>
    rw [afterSet_eq t (u :: us) v (by simp)]
    exact goodN_insert t.root (u :: us) v hg

/-- Goodness of a zipper frame: its stored subtrees are good, and for a
left or right frame the ancestor node keeps its value-or-middle witness
independently of the replaced child. -/
def goodFrame : Frame V → Bool
  | ⟨.L, _, v, s1, s2⟩ => goodN s1 && goodN s2 && (v.isSome || !s1.isNil)
  | ⟨.M, _, _, s1, s2⟩ => goodN s1 && goodN s2
  | ⟨.R, _, v, s1, s2⟩ => goodN s1 && goodN s2 && (v.isSome || !s2.isNil)

theorem rebuild_good (ctx : List (Frame V)) (sub : Node V)
    (hctx : ∀ f ∈ ctx, goodFrame f = true) (hs : goodN sub = true) (hnn : sub ≠ .nil) :
    goodN (rebuild sub ctx) = true := by
  induction ctx generalizing sub with
  | nil => exact hs
  | cons f fs ih =>
    have hf : goodFrame f = true := hctx f (by simp)
    have hfs : ∀ g ∈ fs, goodFrame g = true := fun g hg => hctx g (by simp [hg])
    show goodN (rebuild (plug sub f) fs) = true
    obtain ⟨d, fk, fv, s1, s2⟩ := f
    cases d with
    | L =>
      simp only [goodFrame, Bool.and_eq_true] at hf
      refine ih (plug sub ⟨.L, fk, fv, s1, s2⟩) hfs ?_ (fun h => Node.noConfusion h)
      simp [plug, goodN, hf.1.1, hf.1.2, hf.2, hs]
    | M =>
      simp only [goodFrame, Bool.and_eq_true] at hf
      refine ih (plug sub ⟨.M, fk, fv, s1, s2⟩) hfs ?_ (fun h => Node.noConfusion h)
      cases sub with
      | nil => exact absurd rfl hnn
      | mk a b c d2 e =>
        simp [plug, goodN, hf.1, hf.2, Node.isNil]
        simpa [goodN] using hs
    | R =>
      simp only [goodFrame, Bool.and_eq_true] at hf
      refine ih (plug sub ⟨.R, fk, fv, s1, s2⟩) hfs ?_ (fun h => Node.noConfusion h)
      simp [plug, goodN, hf.1.1, hf.1.2, hf.2, hs]


theorem goodN_parts (k : Key) (v : Option V) (l m r : Node V)
    (h : goodN (Node.mk k v l m r) = true) :
    (v.isSome || !m.isNil) = true ∧ goodN l = true ∧ goodN m = true ∧ goodN r = true := by
  simp only [goodN, Bool.and_eq_true] at h
  exact ⟨h.1.1.1, h.1.1.2, h.1.2, h.2⟩

theorem goodN_mk (k : Key) (v : Option V) (l m r : Node V)
    (hc : (v.isSome || !m.isNil) = true) (hl : goodN l = true) (hm : goodN m = true)
    (hr : goodN r = true) : goodN (Node.mk k v l m r) = true := by
  simp only [goodN, Bool.and_eq_true]
  exact ⟨⟨⟨hc, hl⟩, hm⟩, hr⟩

theorem rightmost_goodN (n : Node V) (h : goodN n = true) : goodN (rightmost n) = true := by
  induction n with
  | nil => rfl
  | mk k v l m r ihl ihm ihr =>
    cases r with
    | nil => exact h
    | mk rk rv rl rm rr =>
      exact ihr (goodN_parts _ _ _ _ _ h).2.2.2

theorem dropRightmost_goodN (n : Node V) (h : goodN n = true) :
    goodN (dropRightmost n) = true := by
  induction n with
  | nil => rfl
  | mk k v l m r ihl ihm ihr =>
    obtain ⟨hc, hl, hm, hr⟩ := goodN_parts _ _ _ _ _ h
    cases r with
    | nil => exact hl
    | mk rk rv rl rm rr =>
      exact goodN_mk _ _ _ _ _ hc hl hm (ihr hr)

theorem rightmost_ne_nil (n : Node V) (h : n ≠ .nil) : rightmost n ≠ .nil := by
  induction n with
  | nil => exact absurd rfl h
  | mk k v l m r ihl ihm ihr =>
    cases r with
    | nil => exact fun hc => Node.noConfusion hc
    | mk rk rv rl rm rr => exact ihr (fun hc => Node.noConfusion hc)

theorem truthyO_isSome (tv : V → Bool) (v : Option V) (h : truthyO tv v = true) :
    v.isSome = true := by
  cases v with
  | none => exact absurd h (by simp [truthyO])
  | some x => rfl

theorem deleteZ_keep (tv : V → Bool) (n : Node V) (ctx : List (Frame V)) (sub : Node V)
    (h : delStep tv n = .keep sub) : deleteZ tv n ctx = rebuild sub ctx := by
  cases ctx with
  | nil => rw [deleteZ.eq_def, h]
  | cons f fs => rw [deleteZ.eq_def, h]

theorem deleteZ_removeLeaf_nil (tv : V → Bool) (n : Node V)
    (h : delStep tv n = .removeLeaf) : deleteZ tv n [] = .nil := by
  rw [deleteZ.eq_def, h]

theorem deleteZ_removeLeaf_cons (tv : V → Bool) (n : Node V) (f : Frame V)
    (fs : List (Frame V)) (h : delStep tv n = .removeLeaf) :
    deleteZ tv n (f :: fs) = deleteZ tv (plug .nil f) fs := by
  rw [deleteZ.eq_def, h]

theorem delStep_keep_good (tv : V → Bool) (k : Key) (v : Option V) (l m r sub : Node V)
    (hl : goodN l = true) (hm : goodN m = true) (hr : goodN r = true)
    (hstep : delStep tv (Node.mk k v l m r) = .keep sub) :
    goodN sub = true ∧ sub ≠ .nil := by
  cases m with
  | mk mk0 mv0 ml0 mm0 mr0 =>
    simp only [delStep, Node.middle, Node.key, Node.value, Node.left, Node.right,
      DelAction.keep.injEq] at hstep
    subst hstep
    exact ⟨goodN_mk _ _ _ _ _ (by simp [Node.isNil]) hl hm hr, fun h => Node.noConfusion h⟩
  | nil =>
    cases l with
    | nil =>
      cases r with
      | nil =>
        by_cases ht : truthyO tv v = true
        · simp only [delStep, Node.middle, Node.left, Node.right, Node.value, ht, if_true,
            DelAction.keep.injEq] at hstep
          subst hstep
          exact ⟨goodN_mk _ _ _ _ _ (by simp [truthyO_isSome tv v ht]) rfl rfl rfl,
            fun h => Node.noConfusion h⟩
        · simp [delStep, Node.middle, Node.left, Node.right, Node.value, ht] at hstep
      | mk rk rv rl rm rr =>
        simp only [delStep, Node.middle, Node.left, Node.right,
          DelAction.keep.injEq] at hstep
        subst hstep
        exact ⟨hr, fun h => Node.noConfusion h⟩
    | mk lk lv ll lm lr =>
      cases r with
      | nil =>
        simp only [delStep, Node.middle, Node.left, Node.right,
          DelAction.keep.injEq] at hstep
        subst hstep
        exact ⟨hl, fun h => Node.noConfusion h⟩
      | mk rk rv rl rm rr =>
        simp only [delStep, Node.middle, Node.left, Node.right,
          DelAction.keep.injEq] at hstep
        rw [removeRightmost_eq] at hstep
        subst hstep
        have hrg := rightmost_goodN _ hl
        have hdg := dropRightmost_goodN _ hl
        refine ⟨?_, fun h => Node.noConfusion h⟩
        cases hrm : rightmost (Node.mk lk lv ll lm lr) with
        | nil => exact absurd hrm (rightmost_ne_nil _ (fun h => Node.noConfusion h))
        | mk a b c d e =>
          rw [hrm] at hrg
          obtain ⟨hc, hcl, hcm, hcr⟩ := goodN_parts _ _ _ _ _ hrg
          exact goodN_mk _ _ _ _ _ (by simpa [Node.value, Node.middle] using hc)
            hdg (by simpa [Node.middle] using hcm) hr

theorem deleteZ_good (tv : V → Bool) (ctx : List (Frame V)) :
    ∀ (k : Key) (v : Option V) (l m r : Node V), goodN l = true → goodN m = true →
    goodN r = true → (∀ f ∈ ctx, goodFrame f = true) →
    goodN (deleteZ tv (Node.mk k v l m r) ctx) = true := by
  induction ctx with
  | nil =>
    intro k v l m r hl hm hr hctx
    cases hstep : delStep tv (Node.mk k v l m r) with
    | keep sub =>
      obtain ⟨hs, hnn⟩ := delStep_keep_good tv k v l m r sub hl hm hr hstep
      rw [deleteZ_keep tv _ [] sub hstep]
      exact rebuild_good [] sub hctx hs hnn
    | removeLeaf =>
      rw [deleteZ_removeLeaf_nil tv _ hstep]
      rfl
  | cons f fs ih =>
    intro k v l m r hl hm hr hctx
    have hf := hctx f (by simp)
    have hfs : ∀ g ∈ fs, goodFrame g = true := fun g hg => hctx g (by simp [hg])
    cases hstep : delStep tv (Node.mk k v l m r) with
    | keep sub =>
      obtain ⟨hs, hnn⟩ := delStep_keep_good tv k v l m r sub hl hm hr hstep
      rw [deleteZ_keep tv _ (f :: fs) sub hstep]
      exact rebuild_good _ sub hctx hs hnn
    | removeLeaf =>
      rw [deleteZ_removeLeaf_cons tv _ f fs hstep]
      obtain ⟨d, fk, fv, s1, s2⟩ := f
      cases d with
      | L =>
        simp only [goodFrame, Bool.and_eq_true] at hf
        exact ih fk fv .nil s1 s2 rfl hf.1.1 hf.1.2 hfs
      | M =>
        simp only [goodFrame, Bool.and_eq_true] at hf
        exact ih fk fv s1 .nil s2 hf.1 rfl hf.2 hfs
      | R =>
        simp only [goodFrame, Bool.and_eq_true] at hf
        exact ih fk fv s1 s2 .nil hf.1.1 hf.1.2 rfl hfs

theorem delAux_good (tv : V → Bool) (node : Node V) :
    ∀ (word : Key) (ctx : List (Frame V)), node ≠ .nil → goodN node = true →
    (∀ f ∈ ctx, goodFrame f = true) → goodN (delAux tv word node ctx) = true := by
  induction node with
  | nil => intro word ctx hnn; exact absurd rfl hnn
  | mk k v l m r ihl ihm ihr =>
    intro word ctx hnn hg hctx
    obtain ⟨hc, hl, hm, hr⟩ := goodN_parts _ _ _ _ _ hg
    simp only [delAux]
    by_cases hw : word = []
    · simp only [hw, if_true]
      exact deleteZ_good tv ctx k none l m r hl hm hr hctx
    · simp only [hw, if_false, if_neg hw]
      by_cases h1 : ltKey (firstCP word) k = true
      · simp only [h1, if_true]
        have hctx2 : ∀ f ∈ (⟨.L, k, v, m, r⟩ : Frame V) :: ctx, goodFrame f = true := by
          intro f hf
          rcases List.mem_cons.mp hf with hf | hf
          · subst hf; simp only [goodFrame, Bool.and_eq_true]; exact ⟨⟨hm, hr⟩, hc⟩
          · exact hctx f hf
        cases l with
        | nil =>
          show goodN (rebuild (plug .nil ⟨.L, k, v, m, r⟩) ctx) = true
          exact rebuild_good ctx _ hctx (goodN_mk _ _ _ _ _ hc rfl hm hr)
            (fun h => Node.noConfusion h)
        | mk a b c d e =>
          exact ihl word _ (fun h => Node.noConfusion h) hl hctx2
      · by_cases h2 : ltKey k (firstCP word) = true
        · simp only [h1, h2, if_false, if_true]
          have hctx2 : ∀ f ∈ (⟨.R, k, v, l, m⟩ : Frame V) :: ctx, goodFrame f = true := by
            intro f hf
            rcases List.mem_cons.mp hf with hf | hf
            · subst hf; simp only [goodFrame, Bool.and_eq_true]; exact ⟨⟨hl, hm⟩, hc⟩
            · exact hctx f hf
          cases r with
          | nil =>
            show goodN (rebuild (plug .nil ⟨.R, k, v, l, m⟩) ctx) = true
            exact rebuild_good ctx _ hctx (goodN_mk _ _ _ _ _ hc hl hm rfl)
              (fun h => Node.noConfusion h)
          | mk a b c d e =>
            exact ihr word _ (fun h => Node.noConfusion h) hr hctx2
        · by_cases h3 : word.length > 1
          · simp only [h1, h2, h3, if_false, if_true]
            have hctx2 : ∀ f ∈ (⟨.M, k, v, l, r⟩ : Frame V) :: ctx, goodFrame f = true := by
              intro f hf
              rcases List.mem_cons.mp hf with hf | hf
              · subst hf; simp only [goodFrame, Bool.and_eq_true]; exact ⟨hl, hr⟩
              · exact hctx f hf
            cases m with
            | nil =>
              show goodN (rebuild (plug .nil ⟨.M, k, v, l, r⟩) ctx) = true
              have hv : v.isSome = true := by simpa [Node.isNil] using hc
              exact rebuild_good ctx _ hctx (goodN_mk _ _ _ _ _ (by simp [hv, Node.isNil]) hl rfl hr)
                (fun h => Node.noConfusion h)
            | mk a b c d e =>
              exact ihm (word.drop 1) _ (fun h => Node.noConfusion h) hm hctx2
          · simp only [h1, h2, h3, if_false]
            exact deleteZ_good tv ctx k none l m r hl hm hr hctx

/-- The invariant holds after any `del` on a good trie. -/
theorem goodN_del (tv : V → Bool) (t : Trie V) (k : Key) (hg : goodN t.root = true) :
    goodN (Trie.del tv t k).root = true := by
  show goodN (delAux tv k t.root []) = true
  cases hr : t.root with
  | nil => rfl
  | mk a b c d e =>
    exact delAux_good tv _ k [] (fun h => Node.noConfusion h) (hr ▸ hg) (by simp)

/-- Strict lower bound test on a level key (`none` is no bound). -/
def ltLo : Option Nat → Nat → Bool
  | none, _ => true
  | some a, u => a < u

/-- Strict upper bound test on a level key (`none` is no bound). -/
def ltHi : Nat → Option Nat → Bool
  | _, none => true
  | u, some b => u < b

/-!
The structural invariant of claim C9, bounded-BST style: within one level
(nodes linked through `left`/`right` only), each node's key is a single
non-surrogate UTF-16 unit — one code point — lying strictly between the
bounds accumulated from its level ancestors, every key in its left level
subtree is smaller and every key in its right level subtree larger; each
`middle` child starts a fresh level (the next code point of the word).
-/
def wfB (lo hi : Option Nat) : Node V → Bool
  | .nil => true
  | .mk k _ l m r =>
    match k with
    | [u] => noSurr u && ltLo lo u && ltHi u hi &&
             wfB lo (some u) l && wfB none none m && wfB (some u) hi r
    | _ => false

/-- The whole-trie invariant of claim C9 (level order and one-code-point
keys, with `parent` links implicit in the tree representation). -/
def wfT (t : Trie V) : Bool := wfB none none t.root

/-- A key that is exactly one Unicode code point: a single non-surrogate
unit, or a high/low surrogate pair. -/
def oneCP : Key → Bool
  | [u] => noSurr u
  | [u, v] => isHighSurr u && isLowSurr v
  | _ => false

/-- Every reachable node's key is exactly one code point (the premise of
the claim's middle-child clause: a middle path spells one more code point
of a stored word per node). -/
def allKeysOneCP : Node V → Bool
  | .nil => true
  | .mk k _ l m r => oneCP k && allKeysOneCP l && allKeysOneCP m && allKeysOneCP r

theorem wfB_parts (lo hi : Option Nat) (u : Nat) (v : Option V) (l m r : Node V)
    (h : wfB lo hi (Node.mk [u] v l m r) = true) :
    noSurr u = true ∧ ltLo lo u = true ∧ ltHi u hi = true ∧
    wfB lo (some u) l = true ∧ wfB none none m = true ∧ wfB (some u) hi r = true := by
  simp only [wfB, Bool.and_eq_true] at h
  exact ⟨h.1.1.1.1.1, h.1.1.1.1.2, h.1.1.1.2, h.1.1.2, h.1.2, h.2⟩

theorem wfB_mk (lo hi : Option Nat) (u : Nat) (v : Option V) (l m r : Node V)
    (h1 : noSurr u = true) (h2 : ltLo lo u = true) (h3 : ltHi u hi = true)
    (h4 : wfB lo (some u) l = true) (h5 : wfB none none m = true)
    (h6 : wfB (some u) hi r = true) :
    wfB lo hi (Node.mk [u] v l m r) = true := by
  simp only [wfB, Bool.and_eq_true]
  exact ⟨⟨⟨⟨⟨h1, h2⟩, h3⟩, h4⟩, h5⟩, h6⟩

theorem wfB_key_single (lo hi : Option Nat) (k : Key) (v : Option V) (l m r : Node V)
    (h : wfB lo hi (Node.mk k v l m r) = true) : ∃ u, k = [u] := by
  cases k with
  | nil => simp [wfB] at h
  | cons k0 ks =>
    cases ks with
    | nil => exact ⟨k0, rfl⟩
    | cons k1 ks2 => simp [wfB] at h

theorem noSurr_not_high (u : Nat) (h : noSurr u = true) : isHighSurr u = false := by
  simp only [noSurr, Bool.or_eq_true, decide_eq_true_eq] at h
  simp only [isHighSurr, Bool.and_eq_false_iff, decide_eq_false_iff_not]
  omega

theorem firstCP_cons_noSurr (u : Nat) (rest : Key) (h : noSurr u = true) :
    firstCP (u :: rest) = [u] := by
  cases rest with
  | nil => rfl
  | cons w ws => simp [firstCP, noSurr_not_high u h]

theorem ltKey_single (a b : Nat) : ltKey [a] [b] = decide (a < b) := by
  by_cases h : a < b
  · simp [ltKey, h]
  · by_cases h2 : b < a
    · simp [ltKey, h, h2]
    · have : a = b := by omega
      subst this
      simp [ltKey]

theorem chain_wf (rest : Key) : ∀ (u : Nat) (v : V) (lo hi : Option Nat),
    (u :: rest).all noSurr = true → ltLo lo u = true → ltHi u hi = true →
    wfB lo hi (Trie.chain (u :: rest) v).1 = true := by
  induction rest with
  | nil =>
    intro u v lo hi hns hlo hhi
    simp only [List.all_cons, List.all_nil, Bool.and_eq_true] at hns
    exact wfB_mk _ _ _ _ _ _ _ hns.1 hlo hhi rfl rfl rfl
  | cons w ws ih =>
    intro u v lo hi hns hlo hhi
    simp only [List.all_cons, Bool.and_eq_true] at hns
    simp only [Trie.chain]
    rw [firstCP_cons_noSurr u _ hns.1]
    refine wfB_mk _ _ _ _ _ _ _ hns.1 hlo hhi rfl ?_ rfl
    exact ih w v none none (by simp [hns.2.1, hns.2.2]) rfl rfl

theorem insert_wf (node : Node V) : ∀ (u : Nat) (rest : Key) (v : V) (lo hi : Option Nat),
    wfB lo hi node = true → (u :: rest).all noSurr = true →
    ltLo lo u = true → ltHi u hi = true →
    wfB lo hi (Trie.insert node (u :: rest) v).1 = true := by
  induction node with
  | nil =>
    intro u rest v lo hi hwf hns hlo hhi
    exact chain_wf rest u v lo hi hns hlo hhi
  | mk k v0 l m r ihl ihm ihr =>
    intro u rest v lo hi hwf hns hlo hhi
    obtain ⟨uk, rfl⟩ := wfB_key_single lo hi k v0 l m r hwf
    obtain ⟨h1, h2, h3, h4, h5, h6⟩ := wfB_parts lo hi uk v0 l m r hwf
    have hnsu : noSurr u = true := by
      simp only [List.all_cons, Bool.and_eq_true] at hns
      exact hns.1
    simp only [Trie.insert]
    rw [firstCP_cons_noSurr u rest hnsu, ltKey_single, ltKey_single]
    by_cases hc1 : u < uk
    · rw [if_pos (by simpa using hc1)]
      exact wfB_mk _ _ _ _ _ _ _ h1 h2 h3
        (ihl u rest v lo (some uk) h4 hns hlo (by simp [ltHi, hc1])) h5 h6
    · by_cases hc2 : uk < u
      · rw [if_neg (by simpa using hc1), if_pos (by simpa using hc2)]
        exact wfB_mk _ _ _ _ _ _ _ h1 h2 h3 h4 h5
          (ihr u rest v (some uk) hi h6 hns (by simp [ltLo, hc2]) hhi)
      · have huk : u = uk := by omega
        subst huk
        rw [if_neg (by simp), if_neg (by simp)]
        cases rest with
        | nil =>
          rw [if_neg (by simp)]
          exact wfB_mk _ _ _ _ _ _ _ h1 h2 h3 h4 h5 h6
        | cons w ws =>
          rw [if_pos (by simp)]
          have hns2 : (w :: ws).all noSurr = true := by
            simp only [List.all_cons, Bool.and_eq_true] at hns
            simp [hns.2.1, hns.2.2]
          exact wfB_mk _ _ _ _ _ _ _ h1 h2 h3 h4
            (ihm w ws v none none h5 hns2 rfl rfl) h6

/-- `set` preserves the structural invariant when the key has no surrogate
units (an empty key is rejected by validation and changes nothing). -/
theorem wfT_afterSet (t : Trie V) (k : Key) (v : V) (hwf : wfT t = true)
    (hns : k.all noSurr = true) : wfT (afterSet t k v) = true := by
  cases k with
  | nil => exact hwf
  | cons u rest =>
    rw [afterSet_eq t (u :: rest) v (by simp)]
    exact insert_wf t.root u rest v none none hwf hns rfl rfl

/-- `a` is a laxer lower bound than `b`. -/
def loLe : Option Nat → Option Nat → Bool
  | none, _ => true
  | some x, some y => x ≤ y
  | some _, none => false

/-- `a` is a laxer upper bound than `b`. -/
def hiGe : Option Nat → Option Nat → Bool
  | none, _ => true
  | some x, some y => y ≤ x
  | some _, none => false

theorem ltLo_mono (lo2 lo : Option Nat) (u : Nat) (hle : loLe lo2 lo = true)
    (h : ltLo lo u = true) : ltLo lo2 u = true := by
  cases lo2 with
  | none => rfl
  | some x =>
    cases lo with
    | none => exact absurd hle (by simp [loLe])
    | some y =>
      simp only [loLe, decide_eq_true_eq] at hle
      simp only [ltLo, decide_eq_true_eq] at h
      simp only [ltLo, decide_eq_true_eq]
      omega

theorem ltHi_mono (hi2 hi : Option Nat) (u : Nat) (hge : hiGe hi2 hi = true)
    (h : ltHi u hi = true) : ltHi u hi2 = true := by
  cases hi2 with
  | none => rfl
  | some x =>
    cases hi with
    | none => exact absurd hge (by simp [hiGe])
    | some y =>
      simp only [hiGe, decide_eq_true_eq] at hge
      simp only [ltHi, decide_eq_true_eq] at h
      simp only [ltHi, decide_eq_true_eq]
      omega

theorem loLe_refl (lo : Option Nat) : loLe lo lo = true := by
  cases lo <;> simp [loLe]

theorem hiGe_refl (hi : Option Nat) : hiGe hi hi = true := by
  cases hi <;> simp [hiGe]

theorem wfB_weaken (n : Node V) : ∀ (lo hi lo2 hi2 : Option Nat),
    wfB lo hi n = true → loLe lo2 lo = true → hiGe hi2 hi = true →
    wfB lo2 hi2 n = true := by
  induction n with
  | nil => intro lo hi lo2 hi2 h hl hh; rfl
  | mk k v l m r ihl ihm ihr =>
    intro lo hi lo2 hi2 h hl hh
    obtain ⟨u, rfl⟩ := wfB_key_single lo hi k v l m r h
    obtain ⟨h1, h2, h3, h4, h5, h6⟩ := wfB_parts lo hi u v l m r h
    exact wfB_mk _ _ _ _ _ _ _ h1 (ltLo_mono lo2 lo u hl h2) (ltHi_mono hi2 hi u hh h3)
      (ihl lo (some u) lo2 (some u) h4 hl (hiGe_refl _))
      h5
      (ihr (some u) hi (some u) hi2 h6 (loLe_refl _) hh)

/-- Well-formedness of an ancestor path: each frame holds the parts of a
well-formed ancestor, and the indexes give the bounds that apply to the
subtree plugged into the hole. -/
inductive WfCtx : List (Frame V) → Option Nat → Option Nat → Prop where
  | nil : WfCtx [] none none
  | consL (fs : List (Frame V)) (lo hi : Option Nat) (u : Nat) (v : Option V)
      (m r : Node V) :
      WfCtx fs lo hi → noSurr u = true → ltLo lo u = true → ltHi u hi = true →
      wfB none none m = true → wfB (some u) hi r = true →
      WfCtx (⟨.L, [u], v, m, r⟩ :: fs) lo (some u)
  | consM (fs : List (Frame V)) (lo hi : Option Nat) (u : Nat) (v : Option V)
      (l r : Node V) :
      WfCtx fs lo hi → noSurr u = true → ltLo lo u = true → ltHi u hi = true →
      wfB lo (some u) l = true → wfB (some u) hi r = true →
      WfCtx (⟨.M, [u], v, l, r⟩ :: fs) none none
  | consR (fs : List (Frame V)) (lo hi : Option Nat) (u : Nat) (v : Option V)
      (l m : Node V) :
      WfCtx fs lo hi → noSurr u = true → ltLo lo u = true → ltHi u hi = true →
      wfB lo (some u) l = true → wfB none none m = true →
      WfCtx (⟨.R, [u], v, l, m⟩ :: fs) (some u) hi

theorem rebuild_wf (ctx : List (Frame V)) (lo hi : Option Nat) (sub : Node V)
    (hctx : WfCtx ctx lo hi) (hs : wfB lo hi sub = true) :
    wfB none none (rebuild sub ctx) = true := by
  induction hctx generalizing sub with
  | nil => exact hs
  | consL fs lo0 hi0 u v m r hfs hu hlo hhi hm hr ih =>
    exact ih _ (wfB_mk _ _ _ _ _ _ _ hu hlo hhi hs hm hr)
  | consM fs lo0 hi0 u v l r hfs hu hlo hhi hl hr ih =>
    exact ih _ (wfB_mk _ _ _ _ _ _ _ hu hlo hhi hl hs hr)
  | consR fs lo0 hi0 u v l m hfs hu hlo hhi hl hm ih =>
    exact ih _ (wfB_mk _ _ _ _ _ _ _ hu hlo hhi hl hm hs)

theorem ltLo_trans_lt (lo : Option Nat) (a b : Nat) (h1 : ltLo lo a = true)
    (h2 : a < b) : ltLo lo b = true := by
  cases lo with
  | none => rfl
  | some x =>
    simp only [ltLo, decide_eq_true_eq] at h1
    simp only [ltLo, decide_eq_true_eq]
    omega

theorem ltHi_trans_lt (hi : Option Nat) (a b : Nat) (h1 : ltHi b hi = true)
    (h2 : a < b) : ltHi a hi = true := by
  cases hi with
  | none => rfl
  | some x =>
    simp only [ltHi, decide_eq_true_eq] at h1
    simp only [ltHi, decide_eq_true_eq]
    omega

theorem splice_wf (l : Node V) : ∀ (lo hi : Option Nat), l ≠ .nil → wfB lo hi l = true →
    ∃ um, (rightmost l).key = [um] ∧ noSurr um = true ∧ ltLo lo um = true ∧
      ltHi um hi = true ∧ wfB none none (rightmost l).middle = true ∧
      wfB lo (some um) (dropRightmost l) = true := by
  induction l with
  | nil => intro lo hi hne; exact absurd rfl hne
  | mk k v ll lm lr ihl ihm ihr =>
    intro lo hi hne hwf
    obtain ⟨u, rfl⟩ := wfB_key_single lo hi k v ll lm lr hwf
    obtain ⟨h1, h2, h3, h4, h5, h6⟩ := wfB_parts lo hi u v ll lm lr hwf
    cases lr with
    | nil =>
      exact ⟨u, rfl, h1, h2, h3, h5, h4⟩
    | mk rk rv rl rm rr =>
      obtain ⟨um, hkey, hns, hlo2, hhi2, hmid, hdrop⟩ :=
        ihr (some u) hi (fun h => Node.noConfusion h) h6
      have hult : u < um := by
        simpa [ltLo, decide_eq_true_eq] using hlo2
      refine ⟨um, hkey, hns, ltLo_trans_lt lo u um h2 hult, hhi2, hmid, ?_⟩
      show wfB lo (some um) (Node.mk [u] v ll lm (dropRightmost (Node.mk rk rv rl rm rr))) = true
      exact wfB_mk _ _ _ _ _ _ _ h1 h2 (by simp [ltHi, hult])
        (wfB_weaken ll lo (some u) lo (some u) h4 (loLe_refl _) (hiGe_refl _))
        h5 hdrop

theorem delStep_keep_wf (tv : V → Bool) (lo hi : Option Nat) (u : Nat) (v : Option V)
    (l m r sub : Node V) (hwf : wfB lo hi (Node.mk [u] v l m r) = true)
    (hstep : delStep tv (Node.mk [u] v l m r) = .keep sub) :
    wfB lo hi sub = true := by
  obtain ⟨h1, h2, h3, h4, h5, h6⟩ := wfB_parts lo hi u v l m r hwf
  cases m with
  | mk mk0 mv0 ml0 mm0 mr0 =>
    simp only [delStep, Node.middle, Node.key, Node.value, Node.left, Node.right,
      DelAction.keep.injEq] at hstep
    subst hstep
    exact wfB_mk _ _ _ _ _ _ _ h1 h2 h3 h4 h5 h6
  | nil =>
    cases l with
    | nil =>
      cases r with
      | nil =>
        by_cases ht : truthyO tv v = true
        · simp only [delStep, Node.middle, Node.left, Node.right, Node.value, ht, if_true,
            DelAction.keep.injEq] at hstep
          subst hstep
          exact hwf
        · simp [delStep, Node.middle, Node.left, Node.right, Node.value, ht] at hstep
      | mk rk rv rl rm rr =>
        simp only [delStep, Node.middle, Node.left, Node.right,
          DelAction.keep.injEq] at hstep
        subst hstep
        exact wfB_weaken _ (some u) hi lo hi h6 (by simp [loLe, ltLo] at h2 ⊢; cases lo with
          | none => rfl
          | some x => simp [loLe]; simp [ltLo, decide_eq_true_eq] at h2; omega) (hiGe_refl _)
    | mk lk lv ll lm lr =>
      cases r with
      | nil =>
        simp only [delStep, Node.middle, Node.left, Node.right,
          DelAction.keep.injEq] at hstep
        subst hstep
        refine wfB_weaken _ lo (some u) lo hi h4 (loLe_refl _) ?_
        cases hi with
        | none => rfl
        | some x =>
          simp only [ltHi, decide_eq_true_eq] at h3
          simp only [hiGe, decide_eq_true_eq]
          omega
      | mk rk rv rl rm rr =>
        simp only [delStep, Node.middle, Node.left, Node.right,
          DelAction.keep.injEq] at hstep
        rw [removeRightmost_eq] at hstep
        subst hstep
        obtain ⟨um, hkey, hns, hlo2, hhi2, hmid, hdrop⟩ :=
          splice_wf (Node.mk lk lv ll lm lr) lo (some u)
            (fun h => Node.noConfusion h) h4
        have hult : um < u := by
          simpa [ltHi, decide_eq_true_eq] using hhi2
        cases hrm : rightmost (Node.mk lk lv ll lm lr) with
        | nil =>
          exact absurd hrm (rightmost_ne_nil _ (fun h => Node.noConfusion h))
        | mk a b c d e =>
          rw [hrm] at hkey hmid
          have hkeyx : a = [um] := by simpa [Node.key] using hkey
          subst hkeyx
          refine wfB_mk _ _ _ _ _ _ _ hns hlo2 (ltHi_trans_lt hi um u h3 hult) ?_
            (by simpa [Node.middle] using hmid) ?_
          · simpa [hrm] using hdrop
          · refine wfB_weaken _ (some u) hi (some um) hi h6 ?_ (hiGe_refl _)
            simp only [loLe, decide_eq_true_eq]
            omega

theorem deleteZ_wf (tv : V → Bool) (ctx : List (Frame V)) :
    ∀ (lo hi : Option Nat) (n : Node V), n ≠ .nil → wfB lo hi n = true →
    WfCtx ctx lo hi → wfB none none (deleteZ tv n ctx) = true := by
  induction ctx with
  | nil =>
    intro lo hi n hne hwf hctx
    cases n with
    | nil => exact absurd rfl hne
    | mk k v l m r =>
      obtain ⟨u, rfl⟩ := wfB_key_single lo hi k v l m r hwf
      cases hstep : delStep tv (Node.mk [u] v l m r) with
      | keep sub =>
        rw [deleteZ_keep tv _ [] sub hstep]
        exact rebuild_wf [] lo hi sub hctx (delStep_keep_wf tv lo hi u v l m r sub hwf hstep)
      | removeLeaf =>
        rw [deleteZ_removeLeaf_nil tv _ hstep]
        rfl
  | cons f fs ih =>
    intro lo hi n hne hwf hctx
    cases n with
    | nil => exact absurd rfl hne
    | mk k v l m r =>
      obtain ⟨u, rfl⟩ := wfB_key_single lo hi k v l m r hwf
      cases hstep : delStep tv (Node.mk [u] v l m r) with
      | keep sub =>
        rw [deleteZ_keep tv _ (f :: fs) sub hstep]
        exact rebuild_wf _ lo hi sub hctx (delStep_keep_wf tv lo hi u v l m r sub hwf hstep)
      | removeLeaf =>
        rw [deleteZ_removeLeaf_cons tv _ f fs hstep]
        cases hctx with
        | consL =>
          exact ih _ _ _ (fun h => Node.noConfusion h)
            (wfB_mk _ _ _ _ _ _ _ (by assumption) (by assumption) (by assumption) rfl
              (by assumption) (by assumption)) (by assumption)
        | consM =>
          exact ih _ _ _ (fun h => Node.noConfusion h)
            (wfB_mk _ _ _ _ _ _ _ (by assumption) (by assumption) (by assumption)
              (by assumption) rfl (by assumption)) (by assumption)
        | consR =>
          exact ih _ _ _ (fun h => Node.noConfusion h)
            (wfB_mk _ _ _ _ _ _ _ (by assumption) (by assumption) (by assumption)
              (by assumption) (by assumption) rfl) (by assumption)

theorem delAux_wf (tv : V → Bool) (node : Node V) :
    ∀ (word : Key) (lo hi : Option Nat) (ctx : List (Frame V)),
    wfB lo hi node = true → WfCtx ctx lo hi →
    wfB none none (delAux tv word node ctx) = true := by
  induction node with
  | nil =>
    intro word lo hi ctx hwf hctx
    exact rebuild_wf ctx lo hi .nil hctx rfl
  | mk k v l m r ihl ihm ihr =>
    intro word lo hi ctx hwf hctx
    obtain ⟨u, rfl⟩ := wfB_key_single lo hi k v l m r hwf
    obtain ⟨h1, h2, h3, h4, h5, h6⟩ := wfB_parts lo hi u v l m r hwf
    simp only [delAux]
    by_cases hw : word = []
    · simp only [hw, if_true]
      exact deleteZ_wf tv ctx lo hi _ (fun h => Node.noConfusion h)
        (wfB_mk _ _ _ _ _ _ _ h1 h2 h3 h4 h5 h6) hctx
    · simp only [hw, if_false, if_neg hw]
      by_cases hc1 : ltKey (firstCP word) [u] = true
      · simp only [hc1, if_true]
        exact ihl word lo (some u) _ h4 (WfCtx.consL _ lo hi u v m r hctx h1 h2 h3 h5 h6)
      · by_cases hc2 : ltKey [u] (firstCP word) = true
        · simp only [hc1, hc2, if_false, if_true]
          exact ihr word (some u) hi _ h6 (WfCtx.consR _ lo hi u v l m hctx h1 h2 h3 h4 h5)
        · by_cases hc3 : word.length > 1
          · simp only [hc1, hc2, hc3, if_false, if_true]
            exact ihm (word.drop 1) none none _ h5
              (WfCtx.consM _ lo hi u v l r hctx h1 h2 h3 h4 h6)
          · simp only [hc1, hc2, hc3, if_false]
            exact deleteZ_wf tv ctx lo hi _ (fun h => Node.noConfusion h)
              (wfB_mk _ _ _ _ _ _ _ h1 h2 h3 h4 h5 h6) hctx

/-- `del` preserves the structural invariant for any argument key,
surrogate or not. -/
theorem wfT_del (tv : V → Bool) (t : Trie V) (k : Key) (hwf : wfT t = true) :
    wfT (Trie.del tv t k) = true := by
  show wfB none none (delAux tv k t.root []) = true
  exact delAux_wf tv t.root k none none [] hwf WfCtx.nil

/-- One public mutating call of the Trie interface. -/
inductive Op (V : Type) : Type where
  | set (k : Key) (v : V)
  | del (k : Key)
deriving Repr

def applyOp (tv : V → Bool) (t : Trie V) : Op V → Trie V
  | .set k v => afterSet t k v
  | .del k => Trie.del tv t k

def runOps (tv : V → Bool) (ops : List (Op V)) : Trie V :=
  ops.foldl (applyOp tv) Trie.empty

/-- The keys passed to `set` stay inside the basic multilingual plane (no
surrogate units); `del` keys are unrestricted. -/
def opBMP : Op V → Bool
  | .set k _ => k.all noSurr
  | .del _ => true

theorem wfT_foldl (tv : V → Bool) (ops : List (Op V)) :
    ∀ (t : Trie V), wfT t = true → ops.all opBMP = true →
    wfT (ops.foldl (applyOp tv) t) = true := by
  induction ops with
  | nil => intro t h hall; exact h
  | cons op rest ih =>
    intro t h hall
    simp only [List.all_cons, Bool.and_eq_true] at hall
    simp only [List.foldl_cons]
    refine ih (applyOp tv t op) ?_ hall.2
    cases op with
    | set k v => exact wfT_afterSet t k v h hall.1
    | del k => exact wfT_del tv t k h

/-- C9 counterexample: after `set("😀", 7)` the middle child of the root
carries the key "\uDE00" — a lone low surrogate, not a Unicode code point
— so the path through `middle` does not represent the next code point of
the stored word, and the one-code-point-per-node reading of the invariant
is violated. -/
theorem invariant_middle_surrogate_counterexample :
    (afterSet (Trie.empty : Trie Nat) [0xD83D, 0xDE00] 7).root.middle.key = [0xDE00] ∧
    isLowSurr 0xDE00 = true ∧
    allKeysOneCP (afterSet (Trie.empty : Trie Nat) [0xD83D, 0xDE00] 7).root = false :=
  ⟨rfl, rfl, rfl⟩

/-- C9 amended: after every sequence of `set`/`del` operations whose `set`
keys contain no surrogate units (so that every key symbol is a single
code point), every reachable node satisfies the structural invariants:
single-code-point keys, every key in a node's left level subtree smaller
and every key in its right level subtree larger than its own, and each
middle child starting the next code point level.  Parent links are
represented implicitly by the tree, so their consistency is the
representation itself. -/
theorem invariant_preserved_for_bmp_keys (tv : V → Bool) (ops : List (Op V))
    (hall : ops.all opBMP = true) : wfT (runOps tv ops) = true :=
  wfT_foldl tv ops Trie.empty rfl hall

theorem invariant_preserved_for_bmp_keys_witness :
    ([Op.set [100] 1, Op.set [98] 2, Op.set [99] 3, Op.set [101] 4,
      Op.del [100], Op.del []] : List (Op Nat)).all opBMP = true ∧
    wfT (runOps tvNat
      [Op.set [100] 1, Op.set [98] 2, Op.set [99] 3, Op.set [101] 4,
       Op.del [100], Op.del []]) = true :=
  ⟨by decide,
   invariant_preserved_for_bmp_keys tvNat
     [Op.set [100] 1, Op.set [98] 2, Op.set [99] 3, Op.set [101] 4,
      Op.del [100], Op.del []] (by decide)⟩

/-- The word `s` is located by `find` at a node with a truthy value. -/
def foundTruthy (tv : V → Bool) (s : Key) (node : Node V) : Bool :=
  truthyO tv (Trie.find s node).value

theorem foundTruthy_ne_nil (tv : V → Bool) (s : Key) (node : Node V)
    (h : foundTruthy tv s node = true) : Trie.find s node ≠ .nil := by
  intro hc
  rw [foundTruthy, hc] at h
  exact absurd h (by simp [Node.value, truthyO])

theorem firstCP_append (p s : Key) (hp : p ≠ []) (hns : p.all noSurr = true) :
    firstCP (p ++ s) = firstCP p := by
  cases p with
  | nil => exact absurd rfl hp
  | cons a t =>
    cases t with
    | nil =>
      simp only [List.all_cons, List.all_nil, Bool.and_eq_true] at hns
      simp only [List.cons_append, List.nil_append]
      rw [firstCP_cons_noSurr a s hns.1]
      rfl
    | cons b t2 => rfl

theorem firstCP_cons_ne_nil (a : Nat) (t : Key) : firstCP (a :: t) ≠ [] := by
  cases t with
  | nil => simp [firstCP]
  | cons b t2 =>
    simp only [firstCP]
    by_cases hs : (isHighSurr a && isLowSurr b) = true
    · simp [hs]
    · simp [hs]

theorem firstCP_head (a u : Nat) (t : Key) (h : firstCP (a :: t) = [u]) : a = u := by
  cases t with
  | nil =>
    injection h
  | cons b t2 =>
    simp only [firstCP] at h
    by_cases hs : (isHighSurr a && isLowSurr b) = true
    · rw [if_pos hs] at h
      injection h
    · rw [if_neg hs] at h
      injection h

theorem find_in_bounds (node : Node V) : ∀ (lo hi : Option Nat) (s : Key),
    wfB lo hi node = true → s ≠ [] → Trie.find s node ≠ .nil →
    ∃ x, firstCP s = [x] ∧ ltLo lo x = true ∧ ltHi x hi = true := by
  induction node with
  | nil =>
    intro lo hi s hwf hs hne
    exact absurd rfl hne
  | mk k v l m r ihl ihm ihr =>
    intro lo hi s hwf hs hne
    obtain ⟨u, rfl⟩ := wfB_key_single lo hi k v l m r hwf
    obtain ⟨h1, h2, h3, h4, h5, h6⟩ := wfB_parts lo hi u v l m r hwf
    rw [Trie.find, if_neg hs] at hne
    by_cases hc1 : ltKey (firstCP s) [u] = true
    · rw [if_pos hc1] at hne
      obtain ⟨x, hx, hxl, hxh⟩ := ihl lo (some u) s h4 hs hne
      have hxu : x < u := by simpa [ltHi, decide_eq_true_eq] using hxh
      exact ⟨x, hx, hxl, ltHi_trans_lt hi x u h3 hxu⟩
    · rw [if_neg hc1] at hne
      by_cases hc2 : ltKey [u] (firstCP s) = true
      · rw [if_pos hc2] at hne
        obtain ⟨x, hx, hxl, hxh⟩ := ihr (some u) hi s h6 hs hne
        have hxu : u < x := by simpa [ltLo, decide_eq_true_eq] using hxl
        exact ⟨x, hx, ltLo_trans_lt lo u x h2 hxu, hxh⟩
      · have hfs : firstCP s = [u] := by
          cases s with
          | nil => exact absurd rfl hs
          | cons a t =>
            cases hfc : firstCP (a :: t) with
            | nil => exact absurd hfc (firstCP_cons_ne_nil a t)
            | cons x xs =>
              rw [hfc] at hc1 hc2
              have := ltKey_total (x :: xs) [u] (by simpa using hc1) (by simpa using hc2)
              rw [this]
        exact ⟨u, hfs, h2, h3⟩

theorem find_middle_wf (node : Node V) : ∀ (lo hi : Option Nat) (p : Key)
    (a : Key) (b : Option V) (c d e : Node V), wfB lo hi node = true →
    Trie.find p node = Node.mk a b c d e → wfB none none d = true := by
  induction node with
  | nil =>
    intro lo hi p a b c d e hwf hfind
    exact absurd hfind (by simp [Trie.find])
  | mk k v l m r ihl ihm ihr =>
    intro lo hi p a b c d e hwf hfind
    obtain ⟨u, rfl⟩ := wfB_key_single lo hi k v l m r hwf
    obtain ⟨h1, h2, h3, h4, h5, h6⟩ := wfB_parts lo hi u v l m r hwf
    rw [Trie.find] at hfind
    by_cases hp : p = []
    · rw [if_pos hp] at hfind
      injection hfind with e1 e2 e3 e4 e5
      subst e4
      exact h5
    · rw [if_neg hp] at hfind
      by_cases hc1 : ltKey (firstCP p) [u] = true
      · rw [if_pos hc1] at hfind
        exact ihl lo (some u) p a b c d e h4 hfind
      · rw [if_neg hc1] at hfind
        by_cases hc2 : ltKey [u] (firstCP p) = true
        · rw [if_pos hc2] at hfind
          exact ihr (some u) hi p a b c d e h6 hfind
        · rw [if_neg hc2] at hfind
          by_cases hc3 : p.length > 1
          · rw [if_pos hc3] at hfind
            exact ihm none none (p.drop 1) a b c d e h5 hfind
          · rw [if_neg hc3] at hfind
            injection hfind with e1 e2 e3 e4 e5
            subst e4
            exact h5

theorem find_append (node : Node V) : ∀ (p s : Key), p ≠ [] → s ≠ [] →
    p.all noSurr = true →
    Trie.find (p ++ s) node = Trie.find s (Trie.find p node).middle := by
  induction node with
  | nil =>
    intro p s hp hs hns
    cases s <;> rfl
  | mk k v l m r ihl ihm ihr =>
    intro p s hp hs hns
    have hps : p ++ s ≠ [] := by simp [hp]
    rw [Trie.find, Trie.find, if_neg hps, if_neg hp]
    rw [firstCP_append p s hp hns]
    by_cases hc1 : ltKey (firstCP p) k = true
    · rw [if_pos hc1, if_pos hc1]
      exact ihl p s hp hs hns
    · rw [if_neg hc1, if_neg hc1]
      by_cases hc2 : ltKey k (firstCP p) = true
      · rw [if_pos hc2, if_pos hc2]
        exact ihr p s hp hs hns
      · rw [if_neg hc2, if_neg hc2]
        cases p with
        | nil => exact absurd rfl hp
        | cons a t =>
          cases t with
          | nil =>
            have hlen1 : ¬(([a] : Key).length > 1) := by simp
            have hlen2 : (([a] : Key) ++ s).length > 1 := by
              cases s with
              | nil => exact absurd rfl hs
              | cons b t2 => simp
            rw [if_neg hlen1, if_pos hlen2]
            simp [Node.middle]
          | cons b t2 =>
            have hlen1 : ((a :: b :: t2 : Key)).length > 1 := by simp
            have hlen2 : ((a :: b :: t2 : Key) ++ s).length > 1 := by simp
            rw [if_pos hlen1, if_pos hlen2]
            have ht : (a :: b :: t2 : Key).drop 1 = b :: t2 := rfl
            have ht2 : ((a :: b :: t2 : Key) ++ s).drop 1 = (b :: t2) ++ s := rfl
            rw [ht, ht2]
            exact ihm (b :: t2) s (by simp) hs
              (by simp only [List.all_cons, Bool.and_eq_true] at hns; simp [hns.2.1, hns.2.2])

theorem find_cons_mk (word : Key) (hw : word ≠ []) (k : Key) (v : Option V)
    (l m r : Node V) :
    Trie.find word (Node.mk k v l m r)
      = if ltKey (firstCP word) k then Trie.find word l
        else if ltKey k (firstCP word) then Trie.find word r
        else if word.length > 1 then Trie.find (word.drop 1) m
        else Node.mk k v l m r := by
  rw [Trie.find, if_neg hw]

theorem find_self (u : Nat) (v : Option V) (l m r : Node V) :
    Trie.find [u] (Node.mk [u] v l m r) = Node.mk [u] v l m r := by
  rw [find_cons_mk [u] (by simp), show firstCP [u] = [u] from rfl, ltKey_irrefl]
  simp

theorem firstCP_eq_key (s : Key) (u : Nat) (hs : s ≠ [])
    (hc1 : ¬ltKey (firstCP s) [u] = true) (hc2 : ¬ltKey [u] (firstCP s) = true) :
    firstCP s = [u] ∧ ∃ t, s = u :: t := by
  cases s with
  | nil => exact absurd rfl hs
  | cons a t =>
    cases hfc : firstCP (a :: t) with
    | nil => exact absurd hfc (firstCP_cons_ne_nil a t)
    | cons x xs =>
      rw [hfc] at hc1 hc2
      have he := ltKey_total (x :: xs) [u] (by simpa using hc1) (by simpa using hc2)
      have hfc2 : firstCP (a :: t) = [u] := hfc.trans he
      exact ⟨he, t, by rw [firstCP_head a u t hfc2]⟩

theorem getKeys_mem_iff (tv : V → Bool) (node : Node V) :
    ∀ (lo hi : Option Nat) (pre w : Key), wfB lo hi node = true →
    (w ∈ Trie.getKeys tv node pre ↔
      ∃ s, s ≠ [] ∧ w = pre ++ s ∧ foundTruthy tv s node = true) := by
  induction node with
  | nil =>
    intro lo hi pre w hwf
    constructor
    · intro h
      exact absurd h (by simp [Trie.getKeys])
    · rintro ⟨s, hs, hw, hf⟩
      rw [foundTruthy] at hf
      exact absurd hf (by simp [Trie.find, Node.value, truthyO])
  | mk k v l m r ihl ihm ihr =>
    intro lo hi pre w hwf
    obtain ⟨u, rfl⟩ := wfB_key_single lo hi k v l m r hwf
    obtain ⟨h1, h2, h3, h4, h5, h6⟩ := wfB_parts lo hi u v l m r hwf
    constructor
    · intro hmem
      simp only [Trie.getKeys, List.mem_append] at hmem
      rcases hmem with ((hself | hleft) | hmid) | hright
      · by_cases ht : truthyO tv v = true
        · rw [if_pos ht] at hself
          simp only [List.mem_singleton] at hself
          refine ⟨[u], by simp, hself, ?_⟩
          rw [foundTruthy, find_self]
          simpa [Node.value] using ht
        · rw [if_neg ht] at hself
          exact absurd hself (by simp)
      · obtain ⟨s, hs, hw, hfl⟩ := (ihl lo (some u) pre w h4).mp hleft
        refine ⟨s, hs, hw, ?_⟩
        obtain ⟨x, hx, hxl, hxh⟩ :=
          find_in_bounds l lo (some u) s h4 hs (foundTruthy_ne_nil tv s l hfl)
        have hxu : x < u := by simpa [ltHi, decide_eq_true_eq] using hxh
        rw [foundTruthy, find_cons_mk s hs, hx, if_pos (by simp [ltKey_single, hxu])]
        exact hfl
      · obtain ⟨s2, hs2, hw2, hfm⟩ := (ihm none none (pre ++ [u]) w h5).mp hmid
        refine ⟨u :: s2, by simp, by simpa [List.append_assoc] using hw2, ?_⟩
        rw [foundTruthy, find_cons_mk (u :: s2) (by simp),
          firstCP_cons_noSurr u s2 h1, ltKey_irrefl,
          if_neg (by simp), if_neg (by simp),
          if_pos (by cases s2 with
            | nil => exact absurd rfl hs2
            | cons b t2 => simp)]
        exact hfm
      · obtain ⟨s, hs, hw, hfr⟩ := (ihr (some u) hi pre w h6).mp hright
        refine ⟨s, hs, hw, ?_⟩
        obtain ⟨x, hx, hxl, hxh⟩ :=
          find_in_bounds r (some u) hi s h6 hs (foundTruthy_ne_nil tv s r hfr)
        have hxu : u < x := by simpa [ltLo, decide_eq_true_eq] using hxl
        rw [foundTruthy, find_cons_mk s hs, hx,
          if_neg (by simp [ltKey_single]; omega), if_pos (by simp [ltKey_single, hxu])]
        exact hfr
    · rintro ⟨s, hs, rfl, hf⟩
      rw [foundTruthy, find_cons_mk s hs] at hf
      simp only [Trie.getKeys, List.mem_append]
      by_cases hc1 : ltKey (firstCP s) [u] = true
      · rw [if_pos hc1] at hf
        exact Or.inl (Or.inl (Or.inr ((ihl lo (some u) pre _ h4).mpr ⟨s, hs, rfl, hf⟩)))
      · rw [if_neg hc1] at hf
        by_cases hc2 : ltKey [u] (firstCP s) = true
        · rw [if_pos hc2] at hf
          exact Or.inr ((ihr (some u) hi pre _ h6).mpr ⟨s, hs, rfl, hf⟩)
        · rw [if_neg hc2] at hf
          obtain ⟨hfc, t, rfl⟩ := firstCP_eq_key s u hs hc1 hc2
          cases t with
          | nil =>
            rw [if_neg (by simp)] at hf
            refine Or.inl (Or.inl (Or.inl ?_))
            rw [if_pos (by simpa [Node.value] using hf)]
            simp
          | cons b t2 =>
            rw [if_pos (by simp)] at hf
            refine Or.inl (Or.inr ((ihm none none (pre ++ [u]) _ h5).mpr
              ⟨b :: t2, by simp, by simp, hf⟩))

theorem keys_mem_iff (tv : V → Bool) (t : Trie V) (w : Key) (hwf : wfT t = true) :
    w ∈ Trie.keys tv t ↔ w ≠ [] ∧ foundTruthy tv w t.root = true := by
  rw [Trie.keys, getKeys_mem_iff tv t.root none none [] w hwf]
  constructor
  · rintro ⟨s, hs, rfl, hf⟩
    simpa using ⟨hs, hf⟩
  · rintro ⟨hw, hf⟩
    exact ⟨w, hw, by simp, hf⟩

/-- C5 amended: for every non-empty prefix `p` without surrogate units,
on a structurally well-formed trie, `keysWithPrefix(p)` returns exactly
the enumerated keys that *strictly* extend `p` — a stored key equal to
`p` itself is never included (the prefix node's own value is not
emitted), and the enumeration shares the truthiness filter of `keys()`. -/
theorem keysWithPrefix_lists_strict_extensions (tv : V → Bool) (t : Trie V) (p : Key)
    (hwf : wfT t = true) (hp : p ≠ []) (hns : p.all noSurr = true) (w : Key) :
    w ∈ Trie.keysWithPrefix tv t p ↔ (w ∈ Trie.keys tv t ∧ p <+: w ∧ w ≠ p) := by
  rw [Trie.keysWithPrefix]
  cases hfind : Trie.find p t.root with
  | nil =>
    constructor
    · intro h
      exact absurd h (by simp)
    · rintro ⟨hk, hpre, hne⟩
      obtain ⟨s, hps⟩ := hpre
      have hs : s ≠ [] := by
        rintro rfl
        rw [List.append_nil] at hps
        exact hne hps.symm
      obtain ⟨hw, hf⟩ := (keys_mem_iff tv t w hwf).mp hk
      rw [foundTruthy, ← hps, find_append t.root p s hp hs hns, hfind] at hf
      exact absurd hf (by simp [Trie.find, Node.middle, Node.value, truthyO])
  | mk a b c d e =>
    have hwfd : wfB none none d = true :=
      find_middle_wf t.root none none p a b c d e hwf hfind
    rw [getKeys_mem_iff tv d none none p w hwfd]
    constructor
    · rintro ⟨s, hs, rfl, hf⟩
      refine ⟨?_, ⟨s, rfl⟩, ?_⟩
      · rw [keys_mem_iff tv t _ hwf]
        refine ⟨by simp [hp], ?_⟩
        rw [foundTruthy, find_append t.root p s hp hs hns, hfind]
        exact hf
      · intro hc
        exact hs (List.append_cancel_left (hc.trans (List.append_nil p).symm))
    · rintro ⟨hk, hpre, hne⟩
      obtain ⟨s, hps⟩ := hpre
      have hs : s ≠ [] := by
        rintro rfl
        rw [List.append_nil] at hps
        exact hne hps.symm
      obtain ⟨hw, hf⟩ := (keys_mem_iff tv t w hwf).mp hk
      rw [foundTruthy, ← hps, find_append t.root p s hp hs hns, hfind] at hf
      exact ⟨s, hs, hps.symm, hf⟩

theorem keysWithPrefix_lists_strict_extensions_witness :
    (wfT (afterSet (afterSet (afterSet (Trie.empty : Trie Nat)
        [102, 111, 111] 1) [102, 111] 2) [98, 97] 3) = true ∧
     ([102, 111] : Key) ≠ [] ∧
     ([102, 111] : Key).all noSurr = true) ∧
    (([102, 111, 111] : Key) ∈ Trie.keysWithPrefix tvNat
        (afterSet (afterSet (afterSet (Trie.empty : Trie Nat)
          [102, 111, 111] 1) [102, 111] 2) [98, 97] 3) [102, 111] ↔
      (([102, 111, 111] : Key) ∈ Trie.keys tvNat
          (afterSet (afterSet (afterSet (Trie.empty : Trie Nat)
            [102, 111, 111] 1) [102, 111] 2) [98, 97] 3) ∧
       ([102, 111] : Key) <+: [102, 111, 111] ∧
       ([102, 111, 111] : Key) ≠ [102, 111])) :=
  ⟨⟨rfl, by decide, by decide⟩,
   keysWithPrefix_lists_strict_extensions tvNat
     (afterSet (afterSet (afterSet Trie.empty [102, 111, 111] 1) [102, 111] 2) [98, 97] 3)
     [102, 111] rfl (by decide) (by decide) [102, 111, 111]⟩
